import Mathlib

/-!
Verification development for the Semantic Similarity Engine of the
mathematical_question-refinement-chatbot repository
(`backend/services/similarity_service.py`).

The embedding mirrors the Python source:

* `normalize_text`         embeds `SimilarityService._normalize_text`;
* `are_texts_similar`      embeds `SimilarityService._are_texts_similar`;
* `build_index`            embeds `SimilarityService._build_index`;
* `find_similar`           embeds `SimilarityService.find_similar`.

External collaborators are modelled at their interfaces:

* the sentence-transformer model is a `Model`: `encode` maps a text to an
  embedding vector (`none` models a raised exception / provider failure),
  and `cos` gives the cosine similarity of two raw embedding vectors.
  Since the inner product of two L2-normalized vectors equals the cosine
  similarity of the un-normalized vectors, the `faiss.normalize_L2` +
  `IndexFlatIP` inner-product pipeline of the source is modelled by
  applying `cos` to the raw vectors;
* `faiss.IndexFlatIP.search` is modelled by `index_search`: scores of all
  stored vectors against the query, sorted by descending score with ties
  broken by ascending corpus position, truncated to `k` results;
* Python's stable `list.sort(key=..., reverse=True)` and the index's
  ordered output are modelled with the canonical stable insertion sort
  `sortLe` (extensionally the stable sort both runtimes implement).

Scores are rationals (`Rat`), a shallow embedding of the Python floats.
Python dictionaries loaded from JSON may lack the `"id"` or `"question"`
key; `RawRecord` keeps both fields optional, and a `none` access models
the `KeyError` the source would raise at that point.  Exception handling
(`try`/`except`) is modelled with `Option`: a function body that can raise
returns `none` for the raised case, and the caller's `except` branch maps
`none` to the degraded value, exactly as the source does.
-/

/-- The `0.99` near-identity threshold hard-wired in `find_similar`'s call
to `_are_texts_similar`. -/
def q099 : Rat := mkRat 99 100

/-- Splits a character list into its maximal whitespace-free words
(the accumulator holds the current word, reversed). -/
def wordsAux : List Char → List Char → List (List Char)
  | [], acc => if acc.isEmpty then [] else [acc.reverse]
  | c :: cs, acc =>
    if c.isWhitespace then
      if acc.isEmpty then wordsAux cs [] else acc.reverse :: wordsAux cs []
    else wordsAux cs (c :: acc)

/-- Embeds `_normalize_text`: `re.sub(r'\s+', ' ', text.strip()).lower()`,
i.e. trim, collapse every whitespace run to one space, lowercase
(ASCII, as in the corpus data). -/
def normalize_text (text : String) : String :=
  String.intercalate " "
    ((wordsAux text.toList []).map (fun w => String.mk (w.map Char.toLower)))

/-- Interface model of the external sentence-transformer provider.
`encode` returns `none` when the provider call raises; `cos` is the
cosine-similarity form `np.dot(a, b) / (norm a * norm b)`, which also
gives the inner product the FAISS index computes on the L2-normalized
copies of the same vectors. -/
structure Model where
  encode : String → Option (List Rat)
  cos : List Rat → List Rat → Rat

/-- One corpus entry as loaded from JSON; a `none` field models a
dictionary missing that key (reading it raises `KeyError`). -/
structure RawRecord where
  id : Option Int
  question : Option String
deriving DecidableEq

/-- Embeds `_are_texts_similar(text1, text2, threshold)`: surface tier
(normalized equality), then semantic tier (cosine of the embeddings of
the *normalized* texts against `threshold`); an embedding failure falls
back to the already-failed normalized comparison. -/
def are_texts_similar (m : Model) (text1 text2 : String) (threshold : Rat) : Bool :=
  if normalize_text text1 = normalize_text text2 then true
  else
    match m.encode (normalize_text text1), m.encode (normalize_text text2) with
    | some emb1, some emb2 => decide (threshold ≤ m.cos emb1 emb2)
    | _, _ => decide (normalize_text text1 = normalize_text text2)

/-- Option-valued map over a list: `none` as soon as `f` fails on one
element (the batched call fails / a key access raises). -/
def mapOpt (f : α → Option β) : List α → Option (List β)
  | [] => some []
  | a :: as =>
    match f a, mapOpt f as with
    | some b, some bs => some (b :: bs)
    | _, _ => none

/-- Embeds `_build_index`: no questions gives no index; otherwise extract
every `"question"` field (a missing one raises, caught into `index = None`),
encode the batch (a provider failure is likewise caught into
`index = None`), and store the position-aligned vectors. -/
def build_index (m : Model) (questions : List RawRecord) : Option (List (List Rat)) :=
  if questions.isEmpty then none
  else
    match mapOpt RawRecord.question questions with
    | none => none
    | some texts =>
      match mapOpt m.encode texts with
      | none => none
      | some embs => some embs

/-- The engine state after `__init__`: the loaded questions and the FAISS
index (`none` when unbuilt), plus the embedding provider. -/
structure Service where
  model : Model
  questions : List RawRecord
  index : Option (List (List Rat))

/-- Engine construction: load order is preserved and the index is built
once from the loaded questions. -/
def mkService (m : Model) (questions : List RawRecord) : Service :=
  { model := m, questions := questions, index := build_index m questions }

/-- Stable insertion of `x` into `l`: `x` is placed before the first
element `y` with `le x y`. -/
def insertLe (le : α → α → Bool) (x : α) : List α → List α
  | [] => [x]
  | y :: ys => if le x y then x :: y :: ys else y :: insertLe le x ys

/-- Canonical stable sort by the boolean preorder `le` (models Python's
stable `list.sort` and the index's ordered output). -/
def sortLe (le : α → α → Bool) (l : List α) : List α :=
  l.foldr (insertLe le) []

/-- Candidate order of the vector index: descending score, ties broken by
ascending corpus position. -/
def candLE (a b : Rat × Nat) : Bool :=
  decide (b.1 < a.1) || (decide (a.1 = b.1) && decide (a.2 ≤ b.2))

/-- Model of `IndexFlatIP.search` over the stored corpus vectors: score
every stored vector against the query, rank, return the top `k`
`(score, position)` pairs. -/
def index_search (m : Model) (embs : List (List Rat)) (qv : List Rat) (k : Nat) :
    List (Rat × Nat) :=
  (sortLe candLE ((embs.enum).map (fun p => (m.cos qv p.2, p.1)))).take k

/-- One visible result row: the record's data copied, plus the
`"similarity"` and `"is_exact_match"` keys `find_similar` adds. -/
structure ResultEntry where
  record : RawRecord
  similarity : Rat
  is_exact_match : Bool
deriving DecidableEq

/-- The dictionary `find_similar` returns. -/
structure QueryResult where
  results : List ResultEntry
  exact_match_found : Bool
  exact_match_id : Option Int
deriving DecidableEq

/-- The degraded response `{results: [], exact_match_found: False,
exact_match_id: None}`. -/
def degraded : QueryResult :=
  { results := [], exact_match_found := false, exact_match_id := none }

/-- What the loop body of `find_similar` does with one `(similarity, idx)`
candidate. -/
inductive CandAction where
  | err : CandAction
  | skip : CandAction
  | bookSkip : Int → CandAction
  | add : ResultEntry → CandAction
  | bookAdd : Int → ResultEntry → CandAction

/-- Classification of one candidate by the loop body of `find_similar`:
below threshold or out of range is skipped; otherwise the record's
`"question"` is read (`err` models the `KeyError` on a missing key), the
exact-match detector runs at threshold `0.99`, and an exact match reads
the record's `"id"` (`err` again on a missing key) and is dropped from
the visible list exactly when `exclude_exact` holds. -/
def classifyCand (m : Model) (qs : List RawRecord) (query : String) (threshold : Rat)
    (exclude_exact : Bool) (c : Rat × Nat) : CandAction :=
  if threshold ≤ c.1 ∧ c.2 < qs.length then
    match qs[c.2]? with
    | none => CandAction.err
    | some rec =>
      match rec.question with
      | none => CandAction.err
      | some question_text =>
        if are_texts_similar m query question_text q099 then
          match rec.id with
          | none => CandAction.err
          | some j =>
            if exclude_exact then CandAction.bookSkip j
            else CandAction.bookAdd j
              { record := rec, similarity := c.1,
                is_exact_match := are_texts_similar m query question_text q099 }
        else CandAction.add
          { record := rec, similarity := c.1,
            is_exact_match := are_texts_similar m query question_text q099 }
  else CandAction.skip

/-- The candidate loop of `find_similar` over `(similarity, idx)` pairs,
threading `exact_match_found`, `exact_match_id` and `results`; `none`
models an exception escaping to the outer `except`; the loop stops as
soon as `results` reaches `top_k` entries. -/
def candidateLoop (m : Model) (qs : List RawRecord) (query : String) (threshold : Rat)
    (top_k : Nat) (exclude_exact : Bool) :
    List (Rat × Nat) → Bool → Option Int → List ResultEntry →
    Option (List ResultEntry × Bool × Option Int)
  | [], found, mid, res => some (res, found, mid)
  | c :: cs, found, mid, res =>
    match classifyCand m qs query threshold exclude_exact c with
    | CandAction.err => none
    | CandAction.skip => candidateLoop m qs query threshold top_k exclude_exact cs found mid res
    | CandAction.bookSkip j =>
      candidateLoop m qs query threshold top_k exclude_exact cs true (some j) res
    | CandAction.add e =>
      if top_k ≤ (res ++ [e]).length then some (res ++ [e], found, mid)
      else candidateLoop m qs query threshold top_k exclude_exact cs found mid (res ++ [e])
    | CandAction.bookAdd j e =>
      if top_k ≤ (res ++ [e]).length then some (res ++ [e], true, some j)
      else candidateLoop m qs query threshold top_k exclude_exact cs true (some j) (res ++ [e])

/-- The candidates `find_similar` obtains from the index for a query:
encode the query (`none` on provider failure / missing index) and search
with the overfetch budget `k = min(top_k * 2, len(questions))`. -/
def searched_candidates (s : Service) (query : String) (top_k : Nat) :
    Option (List (Rat × Nat)) :=
  match s.index, s.model.encode query with
  | some embs, some qe => some (index_search s.model embs qe (min (top_k * 2) s.questions.length))
  | _, _ => none

/-- The final re-sort order: descending `"similarity"` (stable, as
Python's `sort(key=..., reverse=True)`). -/
def resLE (a b : ResultEntry) : Bool :=
  decide (b.similarity ≤ a.similarity)

/-- Embeds `find_similar(query_question, threshold, top_k, exclude_exact)`:
degraded when the index is missing or the corpus empty; otherwise the
`try` block encodes the query, searches with overfetch, runs the
candidate loop, and re-sorts the surviving rows by descending score;
any exception in the block (`none`) yields the degraded response. -/
def find_similar (s : Service) (query_question : String) (threshold : Rat)
    (top_k : Nat) (exclude_exact : Bool) : QueryResult :=
  if s.index = none ∨ s.questions = [] then degraded
  else
    match (searched_candidates s query_question top_k).bind
        (fun cands => candidateLoop s.model s.questions query_question threshold top_k
          exclude_exact cands false none []) with
    | none => degraded
    | some out =>
      { results := sortLe resLE out.1
        exact_match_found := out.2.1
        exact_match_id := out.2.2 }

/-- Concrete provider for witnesses: every text embeds to `[1]`, every
pair of vectors has cosine similarity `1`. -/
def testModel : Model := { encode := fun _ => some [1], cos := fun _ _ => 1 }

/-- Record whose text "A" normalizes to "a". -/
def testRecA : RawRecord := { id := some 1, question := some "A" }

/-- Record whose text "a " also normalizes to "a". -/
def testRecB : RawRecord := { id := some 2, question := some "a " }

/-- Two-record corpus in which both records are surface-tier exact
matches of the query "a". -/
def testService : Service := mkService testModel [testRecA, testRecB]

/-- Provider whose embeddings are `[length]` and whose cosine is `1` for
equal vectors and `17/20` otherwise. -/
def lenModel : Model :=
  { encode := fun s => some [mkRat s.length 1],
    cos := fun a b => if a = b then 1 else mkRat 17 20 }

/-- Single well-formed record used for the threshold-monotonicity witness. -/
def lenRec : RawRecord := { id := some 1, question := some "abc" }

/-- The sequence of result rows the candidate loop would append, in visit
order, before the `top_k` cap: candidates passing the threshold and range
check, minus exact matches when `exclude_exact` holds. -/
def kept_entries (m : Model) (qs : List RawRecord) (query : String) (th : Rat)
    (ee : Bool) : List (Rat × Nat) → List ResultEntry
  | [] => []
  | c :: cs =>
    match classifyCand m qs query th ee c with
    | CandAction.add e => e :: kept_entries m qs query th ee cs
    | CandAction.bookAdd _ e => e :: kept_entries m qs query th ee cs
    | _ => kept_entries m qs query th ee cs

/-- The exact-match id a candidate action records, if any. -/
def bookOf (a : CandAction) : Option Int :=
  match a with
  | CandAction.bookSkip j => some j
  | CandAction.bookAdd j _ => some j
  | _ => none

/-- The bookkeeping the loop performs on `exact_match_found` /
`exact_match_id` alone: every exact match at or above the threshold turns
the flag on and overwrites the id, so the last one wins. -/
def book_fold (m : Model) (qs : List RawRecord) (query : String) (th : Rat) :
    List (Rat × Nat) → Bool × Option Int → Bool × Option Int
  | [], acc => acc
  | c :: cs, acc =>
    match bookOf (classifyCand m qs query th true c) with
    | some j => book_fold m qs query th cs (true, some j)
    | none => book_fold m qs query th cs acc

/-- Provider whose encode always fails. -/
def noneModel : Model := { encode := fun _ => none, cos := fun _ _ => 0 }

/-- Provider that embeds only the exact corpus text and fails on any
other input (so the query-time encode fails while the index builds). -/
def failModel : Model :=
  { encode := fun s => if s = "corpus" then some [1] else none, cos := fun _ _ => 1 }

/-- Engine whose index is built but whose provider fails on new queries. -/
def failService : Service :=
  mkService failModel [{ id := some 1, question := some "corpus" }]

/-- Engine over one record lacking the `"id"` field; the record indexes
fine but identifying it as an exact match raises at query time. -/
def noIdService : Service := mkService testModel [{ id := none, question := some "a" }]

/-- Three-record corpus for the overfetch witness. -/
def corpus3 : List RawRecord :=
  [{ id := some 1, question := some "p" }, { id := some 2, question := some "q" },
   { id := some 3, question := some "r" }]

/-- A well-formed record. -/
def goodRec : RawRecord := { id := some 1, question := some "good" }

/-- A record missing the `"question"` field. -/
def badRec : RawRecord := { id := some 7, question := none }

theorem length_insertLe (le : α → α → Bool) (x : α) (l : List α) :
    (insertLe le x l).length = l.length + 1 := by
  induction l with
  | nil => rfl
  | cons y ys ih =>
    simp only [insertLe]
    split
    · simp
    · simp [ih]

theorem length_sortLe (le : α → α → Bool) (l : List α) :
    (sortLe le l).length = l.length := by
  induction l with
  | nil => rfl
  | cons y ys ih =>
    simp only [sortLe, List.foldr] at ih ⊢
    rw [length_insertLe, ih]
    rfl

theorem mem_insertLe (le : α → α → Bool) (x a : α) (l : List α) :
    a ∈ insertLe le x l ↔ a = x ∨ a ∈ l := by
  induction l with
  | nil => simp [insertLe]
  | cons y ys ih =>
    simp only [insertLe]
    split
    · simp [List.mem_cons]
    · simp [List.mem_cons, ih]
      tauto

theorem mem_sortLe (le : α → α → Bool) (a : α) (l : List α) :
    a ∈ sortLe le l ↔ a ∈ l := by
  induction l with
  | nil => simp [sortLe]
  | cons y ys ih =>
    simp only [sortLe, List.foldr] at ih ⊢
    rw [mem_insertLe]
    simp [ih]

theorem pairwise_insertLe (le : α → α → Bool)
    (htrans : ∀ a b c, le a b = true → le b c = true → le a c = true)
    (htotal : ∀ a b, le a b = true ∨ le b a = true) (x : α) (l : List α)
    (h : l.Pairwise (fun a b => le a b = true)) :
    (insertLe le x l).Pairwise (fun a b => le a b = true) := by
  induction l with
  | nil => simp [insertLe]
  | cons y ys ih =>
    rw [List.pairwise_cons] at h
    obtain ⟨hy, hys⟩ := h
    simp only [insertLe]
    by_cases hxy : le x y = true
    · rw [if_pos hxy, List.pairwise_cons]
      refine ⟨fun z hz => ?_, ?_⟩
      · rcases List.mem_cons.mp hz with rfl | hz
        · exact hxy
        · exact htrans x y z hxy (hy z hz)
      · rw [List.pairwise_cons]
        exact ⟨hy, hys⟩
    · rw [if_neg hxy, List.pairwise_cons]
      refine ⟨fun z hz => ?_, ih hys⟩
      rw [mem_insertLe] at hz
      rcases hz with hzx | hz
      · rw [hzx]
        rcases htotal x y with h1 | h1
        · exact absurd h1 hxy
        · exact h1
      · exact hy z hz

theorem pairwise_sortLe (le : α → α → Bool)
    (htrans : ∀ a b c, le a b = true → le b c = true → le a c = true)
    (htotal : ∀ a b, le a b = true ∨ le b a = true) (l : List α) :
    (sortLe le l).Pairwise (fun a b => le a b = true) := by
  induction l with
  | nil => simp [sortLe]
  | cons y ys ih => exact pairwise_insertLe le htrans htotal y _ ih

theorem candLE_trans (a b c : Rat × Nat) :
    candLE a b = true → candLE b c = true → candLE a c = true := by
  simp only [candLE, Bool.or_eq_true, Bool.and_eq_true, decide_eq_true_eq]
  rintro (h1 | ⟨h1, h1'⟩) (h2 | ⟨h2, h2'⟩)
  · exact Or.inl (lt_trans h2 h1)
  · exact Or.inl (h2 ▸ h1)
  · exact Or.inl (h1 ▸ h2)
  · exact Or.inr ⟨h1.trans h2, le_trans h1' h2'⟩

theorem candLE_total (a b : Rat × Nat) :
    candLE a b = true ∨ candLE b a = true := by
  simp only [candLE, Bool.or_eq_true, Bool.and_eq_true, decide_eq_true_eq]
  rcases lt_trichotomy a.1 b.1 with h | h | h
  · exact Or.inr (Or.inl h)
  · rcases Nat.le_total a.2 b.2 with h2 | h2
    · exact Or.inl (Or.inr ⟨h, h2⟩)
    · exact Or.inr (Or.inr ⟨h.symm, h2⟩)
  · exact Or.inl (Or.inl h)

theorem candLE_score (a b : Rat × Nat) (h : candLE a b = true) : b.1 ≤ a.1 := by
  simp only [candLE, Bool.or_eq_true, Bool.and_eq_true, decide_eq_true_eq] at h
  rcases h with h | ⟨h, _⟩
  · exact le_of_lt h
  · exact le_of_eq h.symm

theorem candidateLoop_length (m : Model) (qs : List RawRecord) (query : String)
    (th : Rat) (K : Nat) (ee : Bool) (cs : List (Rat × Nat)) :
    ∀ (f0 : Bool) (mid0 : Option Int) (res0 : List ResultEntry)
      (res : List ResultEntry) (f : Bool) (mid : Option Int),
      res0.length < K →
      candidateLoop m qs query th K ee cs f0 mid0 res0 = some (res, f, mid) →
      res.length ≤ K := by
  induction cs with
  | nil =>
    intro f0 mid0 res0 res f mid hlt h
    simp only [candidateLoop, Option.some.injEq, Prod.mk.injEq] at h
    obtain ⟨h1, _, _⟩ := h
    subst h1
    omega
  | cons c cs ih =>
    intro f0 mid0 res0 res f mid hlt h
    simp only [candidateLoop] at h
    split at h
    · exact absurd h (by simp)
    · exact ih f0 mid0 res0 res f mid hlt h
    · exact ih true _ res0 res f mid hlt h
    · rename_i e heq
      split at h
      · simp only [Option.some.injEq, Prod.mk.injEq] at h
        obtain ⟨h1, _, _⟩ := h
        subst h1
        simp only [List.length_append, List.length_cons, List.length_nil]
        omega
      · rename_i hbr
        simp only [List.length_append, List.length_cons, List.length_nil] at hbr
        refine ih f0 mid0 (res0 ++ [e]) res f mid ?_ h
        simp only [List.length_append, List.length_cons, List.length_nil]
        omega
    · rename_i j e heq
      split at h
      · simp only [Option.some.injEq, Prod.mk.injEq] at h
        obtain ⟨h1, _, _⟩ := h
        subst h1
        simp only [List.length_append, List.length_cons, List.length_nil]
        omega
      · rename_i hbr
        simp only [List.length_append, List.length_cons, List.length_nil] at hbr
        refine ih true (some j) (res0 ++ [e]) res f mid ?_ h
        simp only [List.length_append, List.length_cons, List.length_nil]
        omega

theorem mapOpt_length (f : α → Option β) :
    ∀ (l : List α) (l2 : List β), mapOpt f l = some l2 → l2.length = l.length := by
  intro l
  induction l with
  | nil =>
    intro l2 h
    simp only [mapOpt, Option.some.injEq] at h
    subst h
    rfl
  | cons a as ih =>
    intro l2 h
    simp only [mapOpt] at h
    split at h
    · rename_i b bs hfa hrest
      simp only [Option.some.injEq] at h
      subst h
      simp [ih bs hrest]
    · exact absurd h (by simp)

theorem build_index_length (m : Model) (qs : List RawRecord) (embs : List (List Rat))
    (h : build_index m qs = some embs) : embs.length = qs.length := by
  unfold build_index at h
  split at h
  · exact absurd h (by simp)
  · split at h
    · exact absurd h (by simp)
    · rename_i texts htexts
      split at h
      · exact absurd h (by simp)
      · rename_i embs2 hembs
        simp only [Option.some.injEq] at h
        subst h
        rw [mapOpt_length m.encode texts embs2 hembs,
          mapOpt_length RawRecord.question qs texts htexts]

theorem build_index_ne_nil (m : Model) (qs : List RawRecord)
    (h : build_index m qs ≠ none) : qs ≠ [] := by
  intro hq
  subst hq
  exact h rfl

theorem length_index_search (m : Model) (embs : List (List Rat)) (qv : List Rat) (k : Nat) :
    (index_search m embs qv k).length = min k embs.length := by
  unfold index_search
  rw [List.length_take, length_sortLe, List.length_map, List.enum_length]

theorem searched_candidates_length (m : Model) (qs : List RawRecord) (query : String)
    (top_k : Nat) (cands : List (Rat × Nat))
    (h : searched_candidates (mkService m qs) query top_k = some cands) :
    cands.length = min (2 * top_k) qs.length := by
  unfold searched_candidates mkService at h
  split at h
  · rename_i embs qe hidx henc
    simp only [Option.some.injEq] at h
    subst h
    rw [length_index_search, build_index_length m qs embs hidx]
    omega
  · exact absurd h (by simp)

theorem searched_candidates_sorted (s : Service) (query : String) (K : Nat)
    (cands : List (Rat × Nat)) (h : searched_candidates s query K = some cands) :
    cands.Pairwise (fun a b : Rat × Nat => b.1 ≤ a.1) := by
  unfold searched_candidates at h
  split at h
  · rename_i embs qe hidx henc
    simp only [Option.some.injEq] at h
    subst h
    unfold index_search
    have hs := pairwise_sortLe candLE candLE_trans candLE_total
      ((embs.enum).map (fun p => (s.model.cos qe p.2, p.1)))
    have hs2 : (sortLe candLE ((embs.enum).map (fun p => (s.model.cos qe p.2, p.1)))).Pairwise
        (fun a b : Rat × Nat => b.1 ≤ a.1) :=
      hs.imp (fun hab => candLE_score _ _ hab)
    exact hs2.sublist (List.take_sublist _ _)
  · exact absurd h (by simp)

theorem searched_candidates_not_degenerate (m : Model) (qs : List RawRecord) (query : String)
    (K : Nat) (cands : List (Rat × Nat))
    (h : searched_candidates (mkService m qs) query K = some cands) :
    ¬((mkService m qs).index = none ∨ (mkService m qs).questions = []) := by
  unfold searched_candidates at h
  split at h
  · rename_i embs qe hidx henc
    simp only [mkService] at hidx
    intro hor
    rcases hor with h1 | h1
    · simp only [mkService] at h1
      rw [hidx] at h1
      exact absurd h1 (by simp)
    · simp only [mkService] at h1
      have hne : build_index m qs ≠ none := by
        intro h2
        rw [h2] at hidx
        exact absurd hidx (by simp)
      exact build_index_ne_nil m qs hne h1
  · exact absurd h (by simp)

theorem find_similar_of_searched_none (s : Service) (query : String) (th : Rat)
    (K : Nat) (ee : Bool) (h : searched_candidates s query K = none) :
    find_similar s query th K ee = degraded := by
  unfold find_similar
  split
  · rfl
  · rw [h]
    rfl

theorem classifyCand_ne_err (m : Model) (qs : List RawRecord) (query : String)
    (th : Rat) (ee : Bool) (c : Rat × Nat)
    (hwf : ∀ r ∈ qs, r.question ≠ none ∧ r.id ≠ none) :
    classifyCand m qs query th ee c ≠ CandAction.err := by
  unfold classifyCand
  split
  · rename_i hcond
    split
    · rename_i heq
      rw [List.getElem?_eq_none_iff] at heq
      omega
    · rename_i rec heq
      have hrec : rec ∈ qs := List.getElem?_mem heq
      obtain ⟨hq1, hq2⟩ := hwf rec hrec
      split
      · rename_i heq2
        exact absurd heq2 hq1
      · rename_i qt heq2
        split
        · split
          · rename_i heq3
            exact absurd heq3 hq2
          · split <;> simp
        · simp
  · simp

theorem classifyCand_ee_rel (m : Model) (qs : List RawRecord) (query : String)
    (th : Rat) (c : Rat × Nat) (ee : Bool) :
    classifyCand m qs query th ee c = classifyCand m qs query th true c ∨
    ∃ j e, classifyCand m qs query th ee c = CandAction.bookAdd j e ∧
           classifyCand m qs query th true c = CandAction.bookSkip j := by
  unfold classifyCand
  split
  · split
    · exact Or.inl rfl
    · rename_i rec heq0
      split
      · exact Or.inl rfl
      · rename_i qt heq1
        split
        · split
          · exact Or.inl rfl
          · rename_i j heq
            cases ee with
            | false =>
              refine Or.inr ⟨j,
                { record := rec, similarity := c.1,
                  is_exact_match := are_texts_similar m query qt q099 }, ?_, ?_⟩ <;> simp
            | true => exact Or.inl rfl
        · exact Or.inl rfl
  · exact Or.inl rfl

theorem classifyCand_bookSkip_prop (m : Model) (qs : List RawRecord) (query : String)
    (th : Rat) (ee : Bool) (c : Rat × Nat) (j : Int)
    (h : classifyCand m qs query th ee c = CandAction.bookSkip j) :
    th ≤ c.1 ∧ ∃ rec, qs[c.2]? = some rec ∧ rec.id = some j := by
  unfold classifyCand at h
  split at h
  · rename_i hcond
    split at h
    · exact absurd h (by simp)
    · rename_i rec heq
      split at h
      · exact absurd h (by simp)
      · rename_i qt heq2
        split at h
        · split at h
          · exact absurd h (by simp)
          · rename_i j2 heq3
            split at h
            · simp only [CandAction.bookSkip.injEq] at h
              subst h
              exact ⟨hcond.1, rec, heq, heq3⟩
            · exact absurd h (by simp)
        · exact absurd h (by simp)
  · exact absurd h (by simp)

theorem classifyCand_bookAdd_prop (m : Model) (qs : List RawRecord) (query : String)
    (th : Rat) (ee : Bool) (c : Rat × Nat) (j : Int) (e : ResultEntry)
    (h : classifyCand m qs query th ee c = CandAction.bookAdd j e) :
    th ≤ c.1 ∧ ∃ rec, qs[c.2]? = some rec ∧ rec.id = some j := by
  unfold classifyCand at h
  split at h
  · rename_i hcond
    split at h
    · exact absurd h (by simp)
    · rename_i rec heq
      split at h
      · exact absurd h (by simp)
      · rename_i qt heq2
        split at h
        · split at h
          · exact absurd h (by simp)
          · rename_i j2 heq3
            split at h
            · exact absurd h (by simp)
            · simp only [CandAction.bookAdd.injEq] at h
              rw [← h.1]
              exact ⟨hcond.1, rec, heq, heq3⟩
        · exact absurd h (by simp)
  · exact absurd h (by simp)

theorem candidateLoop_book (m : Model) (qs : List RawRecord) (query : String)
    (th : Rat) (K : Nat) (ee : Bool) (cs : List (Rat × Nat)) :
    ∀ (f0 : Bool) (mid0 : Option Int) (res0 : List ResultEntry)
      (res : List ResultEntry) (f : Bool) (mid : Option Int),
      res0.length + cs.length ≤ K →
      candidateLoop m qs query th K ee cs f0 mid0 res0 = some (res, f, mid) →
      (f, mid) = book_fold m qs query th cs (f0, mid0) := by
  induction cs with
  | nil =>
    intro f0 mid0 res0 res f mid hlen h
    simp only [candidateLoop, Option.some.injEq, Prod.mk.injEq] at h
    obtain ⟨h1, h2, h3⟩ := h
    simp [book_fold, h2, h3]
  | cons c cs ih =>
    intro f0 mid0 res0 res f mid hlen h
    simp only [candidateLoop] at h
    simp only [book_fold]
    simp only [List.length_cons] at hlen
    split at h
    · exact absurd h (by simp)
    · rename_i heq
      rcases classifyCand_ee_rel m qs query th c ee with h1 | ⟨j2, e2, h2, h3⟩
      · rw [← h1, heq]
        simp only [bookOf]
        exact ih f0 mid0 res0 res f mid (by omega) h
      · rw [heq] at h2
        exact absurd h2 (by simp)
    · rename_i j heq
      rcases classifyCand_ee_rel m qs query th c ee with h1 | ⟨j2, e2, h2, h3⟩
      · rw [← h1, heq]
        simp only [bookOf]
        exact ih true (some j) res0 res f mid (by omega) h
      · rw [heq] at h2
        exact absurd h2 (by simp)
    · rename_i e heq
      have hnone : bookOf (classifyCand m qs query th true c) = none := by
        rcases classifyCand_ee_rel m qs query th c ee with h1 | ⟨j2, e2, h2, h3⟩
        · rw [← h1, heq]
          rfl
        · rw [heq] at h2
          exact absurd h2 (by simp)
      rw [hnone]
      split at h
      · rename_i hbr
        simp only [Option.some.injEq, Prod.mk.injEq] at h
        obtain ⟨h1, h2, h3⟩ := h
        simp only [List.length_append, List.length_cons, List.length_nil] at hbr
        have hcs : cs = [] := by
          rw [← List.length_eq_zero]
          omega
        subst hcs
        simp [book_fold, h2, h3]
      · rename_i hbr
        simp only [List.length_append, List.length_cons, List.length_nil] at hbr
        refine ih f0 mid0 (res0 ++ [e]) res f mid ?_ h
        simp only [List.length_append, List.length_cons, List.length_nil]
        omega
    · rename_i j e heq
      have hsome : bookOf (classifyCand m qs query th true c) = some j := by
        rcases classifyCand_ee_rel m qs query th c ee with h1 | ⟨j2, e2, h2, h3⟩
        · rw [← h1, heq]
          rfl
        · rw [heq] at h2
          simp only [CandAction.bookAdd.injEq] at h2
          rw [h3, h2.1]
          rfl
      rw [hsome]
      split at h
      · rename_i hbr
        simp only [Option.some.injEq, Prod.mk.injEq] at h
        obtain ⟨h1, h2, h3⟩ := h
        simp only [List.length_append, List.length_cons, List.length_nil] at hbr
        have hcs : cs = [] := by
          rw [← List.length_eq_zero]
          omega
        subst hcs
        simp [book_fold, h2, h3]
      · rename_i hbr
        simp only [List.length_append, List.length_cons, List.length_nil] at hbr
        refine ih true (some j) (res0 ++ [e]) res f mid ?_ h
        simp only [List.length_append, List.length_cons, List.length_nil]
        omega

theorem candidateLoop_results (m : Model) (qs : List RawRecord) (query : String)
    (th : Rat) (K : Nat) (ee : Bool)
    (hwf : ∀ r ∈ qs, r.question ≠ none ∧ r.id ≠ none) (cs : List (Rat × Nat)) :
    ∀ (f0 : Bool) (mid0 : Option Int) (res0 : List ResultEntry),
      res0.length < K →
      ∃ f mid, candidateLoop m qs query th K ee cs f0 mid0 res0 =
        some (res0 ++ (kept_entries m qs query th ee cs).take (K - res0.length), f, mid) := by
  induction cs with
  | nil =>
    intro f0 mid0 res0 hlt
    refine ⟨f0, mid0, ?_⟩
    simp [candidateLoop, kept_entries]
  | cons c cs ih =>
    intro f0 mid0 res0 hlt
    cases hcl : classifyCand m qs query th ee c with
    | err => exact absurd hcl (classifyCand_ne_err m qs query th ee c hwf)
    | skip =>
      obtain ⟨f, mid, hrec⟩ := ih f0 mid0 res0 hlt
      refine ⟨f, mid, ?_⟩
      simp only [candidateLoop, kept_entries, hcl]
      exact hrec
    | bookSkip j =>
      obtain ⟨f, mid, hrec⟩ := ih true (some j) res0 hlt
      refine ⟨f, mid, ?_⟩
      simp only [candidateLoop, kept_entries, hcl]
      exact hrec
    | add e =>
      by_cases hbr : K ≤ (res0 ++ [e]).length
      · refine ⟨f0, mid0, ?_⟩
        simp only [candidateLoop, kept_entries, hcl, if_pos hbr]
        have hk : K - res0.length = 1 := by
          simp only [List.length_append, List.length_cons, List.length_nil] at hbr
          omega
        rw [hk]
        simp
      · have hlt2 : (res0 ++ [e]).length < K := by
          simp only [List.length_append, List.length_cons, List.length_nil]
          simp only [List.length_append, List.length_cons, List.length_nil] at hbr
          omega
        obtain ⟨f, mid, hrec⟩ := ih f0 mid0 (res0 ++ [e]) hlt2
        refine ⟨f, mid, ?_⟩
        simp only [candidateLoop, kept_entries, hcl, if_neg hbr]
        rw [hrec]
        have hk : K - res0.length = (K - (res0 ++ [e]).length) + 1 := by
          simp only [List.length_append, List.length_cons, List.length_nil]
          omega
        rw [hk]
        simp [List.take_succ_cons, List.append_assoc]
    | bookAdd j e =>
      by_cases hbr : K ≤ (res0 ++ [e]).length
      · refine ⟨true, some j, ?_⟩
        simp only [candidateLoop, kept_entries, hcl, if_pos hbr]
        have hk : K - res0.length = 1 := by
          simp only [List.length_append, List.length_cons, List.length_nil] at hbr
          omega
        rw [hk]
        simp
      · have hlt2 : (res0 ++ [e]).length < K := by
          simp only [List.length_append, List.length_cons, List.length_nil]
          simp only [List.length_append, List.length_cons, List.length_nil] at hbr
          omega
        obtain ⟨f, mid, hrec⟩ := ih true (some j) (res0 ++ [e]) hlt2
        refine ⟨f, mid, ?_⟩
        simp only [candidateLoop, kept_entries, hcl, if_neg hbr]
        rw [hrec]
        have hk : K - res0.length = (K - (res0 ++ [e]).length) + 1 := by
          simp only [List.length_append, List.length_cons, List.length_nil]
          omega
        rw [hk]
        simp [List.take_succ_cons, List.append_assoc]

theorem candidateLoop_invariant (m : Model) (qs : List RawRecord) (query : String)
    (th : Rat) (K : Nat) (ee : Bool) (cs : List (Rat × Nat)) :
    ∀ (f0 : Bool) (mid0 : Option Int) (res0 : List ResultEntry)
      (res : List ResultEntry) (f : Bool) (mid : Option Int),
      candidateLoop m qs query th K ee cs f0 mid0 res0 = some (res, f, mid) →
      (f0 = true ↔ mid0 ≠ none) →
      ((f = true ↔ mid ≠ none) ∧
        ∀ i, mid = some i → mid0 = some i ∨
          ∃ sc idx rec, (sc, idx) ∈ cs ∧ th ≤ sc ∧ qs[idx]? = some rec ∧
            rec.id = some i) := by
  induction cs with
  | nil =>
    intro f0 mid0 res0 res f mid h hiff
    simp only [candidateLoop, Option.some.injEq, Prod.mk.injEq] at h
    obtain ⟨_, h2, h3⟩ := h
    subst h2
    subst h3
    exact ⟨hiff, fun i hi => Or.inl hi⟩
  | cons c cs ih =>
    intro f0 mid0 res0 res f mid h hiff
    simp only [candidateLoop] at h
    split at h
    · exact absurd h (by simp)
    · obtain ⟨h1, h2⟩ := ih f0 mid0 res0 res f mid h hiff
      refine ⟨h1, fun i hi => ?_⟩
      rcases h2 i hi with h3 | ⟨sc, idx, rec, hmem, hth, hrec, hid⟩
      · exact Or.inl h3
      · exact Or.inr ⟨sc, idx, rec, List.mem_cons_of_mem c hmem, hth, hrec, hid⟩
    · rename_i j heq
      obtain ⟨h1, h2⟩ := ih true (some j) res0 res f mid h (by simp)
      refine ⟨h1, fun i hi => ?_⟩
      rcases h2 i hi with h3 | ⟨sc, idx, rec, hmem, hth, hrec, hid⟩
      · simp only [Option.some.injEq] at h3
        subst h3
        obtain ⟨hth, rec, hrec, hid⟩ := classifyCand_bookSkip_prop m qs query th ee c j heq
        exact Or.inr ⟨c.1, c.2, rec, List.mem_cons_self c cs, hth, hrec, hid⟩
      · exact Or.inr ⟨sc, idx, rec, List.mem_cons_of_mem c hmem, hth, hrec, hid⟩
    · split at h
      · simp only [Option.some.injEq, Prod.mk.injEq] at h
        obtain ⟨_, h2, h3⟩ := h
        subst h2
        subst h3
        exact ⟨hiff, fun i hi => Or.inl hi⟩
      · obtain ⟨h1, h2⟩ := ih f0 mid0 _ res f mid h hiff
        refine ⟨h1, fun i hi => ?_⟩
        rcases h2 i hi with h3 | ⟨sc, idx, rec, hmem, hth, hrec, hid⟩
        · exact Or.inl h3
        · exact Or.inr ⟨sc, idx, rec, List.mem_cons_of_mem c hmem, hth, hrec, hid⟩
    · rename_i j e heq
      split at h
      · simp only [Option.some.injEq, Prod.mk.injEq] at h
        obtain ⟨_, h2, h3⟩ := h
        subst h2
        subst h3
        refine ⟨by simp, fun i hi => ?_⟩
        simp only [Option.some.injEq] at hi
        subst hi
        obtain ⟨hth, rec, hrec, hid⟩ := classifyCand_bookAdd_prop m qs query th ee c j e heq
        exact Or.inr ⟨c.1, c.2, rec, List.mem_cons_self c cs, hth, hrec, hid⟩
      · obtain ⟨h1, h2⟩ := ih true (some j) _ res f mid h (by simp)
        refine ⟨h1, fun i hi => ?_⟩
        rcases h2 i hi with h3 | ⟨sc, idx, rec, hmem, hth, hrec, hid⟩
        · simp only [Option.some.injEq] at h3
          subst h3
          obtain ⟨hth, rec, hrec, hid⟩ := classifyCand_bookAdd_prop m qs query th ee c j e heq
          exact Or.inr ⟨c.1, c.2, rec, List.mem_cons_self c cs, hth, hrec, hid⟩
        · exact Or.inr ⟨sc, idx, rec, List.mem_cons_of_mem c hmem, hth, hrec, hid⟩

theorem classifyCand_cond_eq (m : Model) (qs : List RawRecord) (query : String)
    (ee : Bool) (c : Rat × Nat) (t1 t2 : Rat)
    (h1 : t1 ≤ c.1 ∧ c.2 < qs.length) (h2 : t2 ≤ c.1 ∧ c.2 < qs.length) :
    classifyCand m qs query t1 ee c = classifyCand m qs query t2 ee c := by
  unfold classifyCand
  rw [if_pos h1, if_pos h2]

theorem classifyCand_skip_of_not (m : Model) (qs : List RawRecord) (query : String)
    (ee : Bool) (c : Rat × Nat) (t : Rat) (h : ¬(t ≤ c.1 ∧ c.2 < qs.length)) :
    classifyCand m qs query t ee c = CandAction.skip := by
  unfold classifyCand
  rw [if_neg h]

theorem kept_entries_nil (m : Model) (qs : List RawRecord) (query : String)
    (ee : Bool) (t : Rat) :
    ∀ cs : List (Rat × Nat), (∀ b ∈ cs, ¬ t ≤ b.1) →
      kept_entries m qs query t ee cs = [] := by
  intro cs
  induction cs with
  | nil => intro _; rfl
  | cons c cs ih =>
    intro hall
    have hsk : classifyCand m qs query t ee c = CandAction.skip := by
      refine classifyCand_skip_of_not m qs query ee c t ?_
      intro hc
      exact hall c (List.mem_cons_self c cs) hc.1
    simp only [kept_entries, hsk]
    exact ih (fun b hb => hall b (List.mem_cons_of_mem c hb))

theorem kept_entries_pfx (m : Model) (qs : List RawRecord) (query : String)
    (ee : Bool) (t1 t2 : Rat) (ht : t1 ≤ t2) :
    ∀ cs : List (Rat × Nat), cs.Pairwise (fun a b : Rat × Nat => b.1 ≤ a.1) →
      kept_entries m qs query t2 ee cs <+: kept_entries m qs query t1 ee cs := by
  intro cs
  induction cs with
  | nil => intro _; exact List.nil_prefix
  | cons c cs ih =>
    intro hp
    rw [List.pairwise_cons] at hp
    obtain ⟨hhead, htail⟩ := hp
    by_cases h2 : t2 ≤ c.1 ∧ c.2 < qs.length
    · have h1 : t1 ≤ c.1 ∧ c.2 < qs.length := ⟨le_trans ht h2.1, h2.2⟩
      have he := classifyCand_cond_eq m qs query ee c t1 t2 h1 h2
      simp only [kept_entries, he]
      cases hcl : classifyCand m qs query t2 ee c with
      | err => exact ih htail
      | skip => exact ih htail
      | bookSkip j => exact ih htail
      | add e => exact List.cons_prefix_cons.mpr ⟨rfl, ih htail⟩
      | bookAdd j e => exact List.cons_prefix_cons.mpr ⟨rfl, ih htail⟩
    · have hsk2 : classifyCand m qs query t2 ee c = CandAction.skip :=
        classifyCand_skip_of_not m qs query ee c t2 h2
      by_cases hidx : c.2 < qs.length
      · have hc1 : ¬ t2 ≤ c.1 := fun hc => h2 ⟨hc, hidx⟩
        simp only [kept_entries, hsk2]
        rw [kept_entries_nil m qs query ee t2 cs
          (fun b hb hc => hc1 (le_trans hc (hhead b hb)))]
        exact List.nil_prefix
      · have hsk1 : classifyCand m qs query t1 ee c = CandAction.skip :=
          classifyCand_skip_of_not m qs query ee c t1 (fun hc => hidx hc.2)
        simp only [kept_entries, hsk2, hsk1]
        exact ih htail

theorem take_pfx {α : Type} (n : Nat) (l1 l2 : List α) (h : l1 <+: l2) :
    l1.take n <+: l2.take n := by
  obtain ⟨t, rfl⟩ := h
  rw [List.take_append_eq_append_take]
  exact List.prefix_append _ _

theorem find_similar_results (m : Model) (qs : List RawRecord) (query : String)
    (th : Rat) (K : Nat) (ee : Bool) (cands : List (Rat × Nat))
    (hwf : ∀ r ∈ qs, r.question ≠ none ∧ r.id ≠ none) (hK : 0 < K)
    (hc : searched_candidates (mkService m qs) query K = some cands) :
    (find_similar (mkService m qs) query th K ee).results =
      sortLe resLE ((kept_entries m qs query th ee cands).take K) := by
  unfold find_similar
  rw [if_neg (searched_candidates_not_degenerate m qs query K cands hc), hc]
  obtain ⟨f, mid, hloop⟩ := candidateLoop_results m qs query th K ee hwf cands
    false none [] (by simpa using hK)
  simp only [mkService, Option.some_bind']
  rw [hloop]
  simp

theorem find_similar_book (m : Model) (qs : List RawRecord) (query : String)
    (th : Rat) (K : Nat) (ee : Bool) (cands : List (Rat × Nat))
    (hc : searched_candidates (mkService m qs) query K = some cands)
    (hlen : cands.length ≤ K)
    (hloop : candidateLoop m qs query th K ee cands false none [] ≠ none) :
    ((find_similar (mkService m qs) query th K ee).exact_match_found,
      (find_similar (mkService m qs) query th K ee).exact_match_id) =
      book_fold m qs query th cands (false, none) := by
  unfold find_similar
  rw [if_neg (searched_candidates_not_degenerate m qs query K cands hc), hc]
  simp only [mkService, Option.some_bind']
  cases hl : candidateLoop m qs query th K ee cands false none [] with
  | none => exact absurd hl hloop
  | some out =>
    simp only
    exact candidateLoop_book m qs query th K ee cands false none [] out.1 out.2.1 out.2.2
      (by simpa using hlen) hl

theorem mapOpt_none (f : α → Option β) :
    ∀ (l : List α) (a : α), a ∈ l → f a = none → mapOpt f l = none := by
  intro l
  induction l with
  | nil => intro a ha _; exact absurd ha (List.not_mem_nil a)
  | cons b bs ih =>
    intro a ha hfa
    rcases List.mem_cons.mp ha with rfl | ha2
    · simp only [mapOpt, hfa]
    · simp only [mapOpt, ih a ha2 hfa]
      cases f b <;> rfl

theorem mapOpt_isSome (f : α → Option β) :
    ∀ l : List α, (∀ a ∈ l, (f a).isSome) → (mapOpt f l).isSome := by
  intro l
  induction l with
  | nil => intro _; rfl
  | cons b bs ih =>
    intro hall
    have hb := hall b (List.mem_cons_self b bs)
    have hbs := ih (fun a ha => hall a (List.mem_cons_of_mem b ha))
    simp only [mapOpt]
    cases hfb : f b with
    | none => rw [hfb] at hb; exact absurd hb (by simp)
    | some v =>
      cases hrest : mapOpt f bs with
      | none => rw [hrest] at hbs; exact absurd hbs (by simp)
      | some vs => rfl

theorem mapOpt_mem (f : α → Option β) :
    ∀ (l : List α) (l2 : List β), mapOpt f l = some l2 →
      ∀ b ∈ l2, ∃ a ∈ l, f a = some b := by
  intro l
  induction l with
  | nil =>
    intro l2 h b hb
    simp only [mapOpt, Option.some.injEq] at h
    subst h
    exact absurd hb (List.not_mem_nil b)
  | cons a as ih =>
    intro l2 h b hb
    simp only [mapOpt] at h
    split at h
    · rename_i v vs hfa hrest
      simp only [Option.some.injEq] at h
      subst h
      rcases List.mem_cons.mp hb with rfl | hb2
      · exact ⟨a, List.mem_cons_self a as, hfa⟩
      · obtain ⟨a2, ha2, hfa2⟩ := ih vs hrest b hb2
        exact ⟨a2, List.mem_cons_of_mem a ha2, hfa2⟩
    · exact absurd h (by simp)

/-- Claim C5: texts with equal normalized forms (whitespace collapsed,
trimmed, lowercased) are classified as an exact match by the surface tier
alone — for *every* provider, including one that always fails, so no
embedding computation is involved. -/
theorem C5_surface_tier_exact (m : Model) (t1 t2 : String) (th : Rat)
    (h : normalize_text t1 = normalize_text t2) :
    are_texts_similar m t1 t2 th = true := by
  unfold are_texts_similar
  rw [if_pos h]

/-- Claim C5, witness: the spec example pair, under the provider whose
encode always fails. -/
theorem C5_witness :
    normalize_text "  What Is 2+2?  " = normalize_text "What is 2+2?" ∧
    are_texts_similar noneModel "  What Is 2+2?  " "What is 2+2?" q099 = true :=
  ⟨by decide, C5_surface_tier_exact noneModel _ _ q099 (by decide)⟩

/-- Claim C6: the exact-match detector is total (a `Bool`-valued function
by construction) and symmetric whenever the cosine form is (as the
mathematical cosine is), and when the surface tier has failed and an
embedding computation fails, the pair is classified as not an exact match
instead of an error propagating. -/
theorem C6_detector_total_symmetric (m : Model)
    (hsym : ∀ a b, m.cos a b = m.cos b a) (t1 t2 : String) (th : Rat) :
    are_texts_similar m t1 t2 th = are_texts_similar m t2 t1 th ∧
    (normalize_text t1 ≠ normalize_text t2 →
      (m.encode (normalize_text t1) = none ∨ m.encode (normalize_text t2) = none) →
      are_texts_similar m t1 t2 th = false) := by
  constructor
  · unfold are_texts_similar
    by_cases h : normalize_text t1 = normalize_text t2
    · rw [if_pos h, if_pos h.symm]
    · have h2 : ¬normalize_text t2 = normalize_text t1 := fun hx => h (Eq.symm hx)
      rw [if_neg h, if_neg h2]
      cases he1 : m.encode (normalize_text t1) with
      | none =>
        cases he2 : m.encode (normalize_text t2) with
        | none => simp [decide_eq_false h, decide_eq_false h2]
        | some e2 => simp [decide_eq_false h, decide_eq_false h2]
      | some e1 =>
        cases he2 : m.encode (normalize_text t2) with
        | none => simp [decide_eq_false h, decide_eq_false h2]
        | some e2 =>
          show decide (th ≤ m.cos e1 e2) = decide (th ≤ m.cos e2 e1)
          rw [hsym e1 e2]
  · intro hne hfail
    unfold are_texts_similar
    rw [if_neg hne]
    rcases hfail with hf | hf
    · rw [hf]
      cases he2 : m.encode (normalize_text t2) <;> simp [decide_eq_false hne]
    · rw [hf]
      cases he1 : m.encode (normalize_text t1) <;> simp [decide_eq_false hne]

/-- Claim C6, witness under the always-failing provider. -/
theorem C6_witness :
    are_texts_similar noneModel "a x" "b" 1 = are_texts_similar noneModel "b" "a x" 1 ∧
    are_texts_similar noneModel "a x" "b" 1 = false :=
  ⟨(C6_detector_total_symmetric noneModel (fun _ _ => rfl) "a x" "b" 1).1,
    (C6_detector_total_symmetric noneModel (fun _ _ => rfl) "a x" "b" 1).2
      (by decide) (Or.inl rfl)⟩

/-- Claim C2: if the vector index is empty or was never built (in
particular on a zero-record corpus), `find_similar` returns the degraded
result `{results: [], exact_match_found: false, exact_match_id: none}`
rather than raising. -/
theorem C2_empty_index_degraded (s : Service) (query : String) (th : Rat) (K : Nat)
    (ee : Bool) (h : s.index = none ∨ s.questions = []) :
    find_similar s query th K ee = degraded := by
  unfold find_similar
  rw [if_pos h]

/-- Claim C2, witness: an engine built from zero records. -/
theorem C2_witness :
    ((mkService testModel []).index = none ∨ (mkService testModel []).questions = []) ∧
    find_similar (mkService testModel []) "anything" (mkRat 8 10) 10 true = degraded :=
  ⟨by decide, C2_empty_index_degraded (mkService testModel []) "anything" (mkRat 8 10) 10 true
    (by decide)⟩

/-- Claim C3: if the embedding provider fails on the query, or any
lower-layer failure occurs after the index check (the candidate loop
raises), `find_similar` returns the degraded result; being a total
function into `QueryResult`, it never propagates an exception. -/
theorem C3_lower_layer_failure_degraded (s : Service) (query : String) (th : Rat)
    (K : Nat) (ee : Bool) :
    (s.model.encode query = none → find_similar s query th K ee = degraded) ∧
    (∀ cands, searched_candidates s query K = some cands →
      candidateLoop s.model s.questions query th K ee cands false none [] = none →
      find_similar s query th K ee = degraded) := by
  constructor
  · intro henc
    have hsc : searched_candidates s query K = none := by
      unfold searched_candidates
      rw [henc]
      cases hidx : s.index with
      | none => rfl
      | some embs => rfl
    exact find_similar_of_searched_none s query th K ee hsc
  · intro cands hc hl
    unfold find_similar
    split
    · rfl
    · simp only [hc, Option.some_bind', hl]

/-- Claim C3, witness: a provider that fails on the query, and an engine
whose loop raises (record without `"id"` identified as an exact match);
both degrade. -/
theorem C3_witness :
    failService.model.encode "nope" = none ∧
    find_similar failService "nope" (mkRat 8 10) 10 true = degraded ∧
    searched_candidates noIdService "a" 10 = some [(1, 0)] ∧
    candidateLoop noIdService.model noIdService.questions "a" (mkRat 8 10) 10 true
      [(1, 0)] false none [] = none ∧
    find_similar noIdService "a" (mkRat 8 10) 10 true = degraded :=
  ⟨by decide,
    (C3_lower_layer_failure_degraded failService "nope" (mkRat 8 10) 10 true).1 (by decide),
    by decide, by decide,
    (C3_lower_layer_failure_degraded noIdService "a" (mkRat 8 10) 10 true).2
      [(1, 0)] (by decide) (by decide)⟩

/-- Claim C4: with a non-empty corpus, the candidate list requested from
the vector index has exactly `min(2 * top_k, corpus_size)` entries. -/
theorem C4_overfetch_budget (m : Model) (qs : List RawRecord) (query : String)
    (top_k : Nat) (cands : List (Rat × Nat))
    (h : searched_candidates (mkService m qs) query top_k = some cands) :
    cands.length = min (2 * top_k) qs.length :=
  searched_candidates_length m qs query top_k cands h

/-- Claim C4, witness: three records, `top_k = 2`, three candidates. -/
theorem C4_witness :
    searched_candidates (mkService testModel corpus3) "q" 2 = some [(1, 0), (1, 1), (1, 2)] ∧
    ([(1, 0), (1, 1), (1, 2)] : List (Rat × Nat)).length = min (2 * 2) corpus3.length :=
  ⟨by decide, C4_overfetch_budget testModel corpus3 "q" 2 [(1, 0), (1, 1), (1, 2)] (by decide)⟩

/-- Claim C7: for every engine, query, threshold, positive `top_k` (the
spec declares `top_k` a positive integer) and `exclude_exact`, the result
list has at most `top_k` entries. -/
theorem C7_top_k_cap (s : Service) (query : String) (th : Rat) (top_k : Nat)
    (ee : Bool) (htop : 0 < top_k) :
    (find_similar s query th top_k ee).results.length ≤ top_k := by
  unfold find_similar
  split
  · simp [degraded]
  · cases hc : searched_candidates s query top_k with
    | none => simp [degraded]
    | some cands =>
      simp only [Option.some_bind']
      cases hl : candidateLoop s.model s.questions query th top_k ee cands
          false none [] with
      | none => simp [degraded]
      | some out =>
        show (sortLe resLE out.1).length ≤ top_k
        rw [length_sortLe]
        exact candidateLoop_length s.model s.questions query th top_k ee cands
          false none [] out.1 out.2.1 out.2.2 (by simpa using htop) hl

/-- Claim C7, witness at `top_k = 10`. -/
theorem C7_witness :
    0 < 10 ∧ (find_similar testService "a" (mkRat 8 10) 10 false).results.length ≤ 10 :=
  ⟨by decide, C7_top_k_cap testService "a" (mkRat 8 10) 10 false (by decide)⟩

/-- Claim C8: for a fixed well-formed corpus, query, positive `top_k` and
`exclude_exact`, and thresholds `t1 < t2`, every record id in the results
at `t2` also appears in the results at `t1`. -/
theorem C8_threshold_monotonicity (m : Model) (qs : List RawRecord) (query : String)
    (K : Nat) (ee : Bool) (t1 t2 : Rat)
    (hwf : ∀ r ∈ qs, r.question ≠ none ∧ r.id ≠ none)
    (hK : 0 < K) (ht : t1 < t2) (x : Option Int)
    (hx : x ∈ (find_similar (mkService m qs) query t2 K ee).results.map
      (fun e => e.record.id)) :
    x ∈ (find_similar (mkService m qs) query t1 K ee).results.map
      (fun e => e.record.id) := by
  cases hc : searched_candidates (mkService m qs) query K with
  | none =>
    rw [find_similar_of_searched_none _ _ _ _ _ hc] at hx
    simp [degraded] at hx
  | some cands =>
    rw [find_similar_results m qs query t2 K ee cands hwf hK hc] at hx
    rw [find_similar_results m qs query t1 K ee cands hwf hK hc]
    simp only [List.mem_map] at hx ⊢
    obtain ⟨e, he, hxe⟩ := hx
    refine ⟨e, ?_, hxe⟩
    rw [mem_sortLe] at he ⊢
    have hpfx := kept_entries_pfx m qs query ee t1 t2 (le_of_lt ht) cands
      (searched_candidates_sorted _ _ _ _ hc)
    exact (take_pfx K _ _ hpfx).sublist.subset he

/-- Claim C8, witness: `t1 = 1/2 < t2 = 4/5` over a one-record corpus. -/
theorem C8_witness :
    (find_similar (mkService lenModel [lenRec]) "q" (mkRat 4 5) 10 true).results.map
      (fun e => e.record.id) = [some 1] ∧
    some 1 ∈ (find_similar (mkService lenModel [lenRec]) "q" (mkRat 1 2) 10 true).results.map
      (fun e => e.record.id) :=
  ⟨by decide,
    C8_threshold_monotonicity lenModel [lenRec] "q" 10 true (mkRat 1 2) (mkRat 4 5)
      (by decide) (by decide) (by decide) (some 1)
      (by rw [show (find_similar (mkService lenModel [lenRec]) "q" (mkRat 4 5)
            10 true).results.map (fun e => e.record.id) = [some 1] from by decide]
          exact List.mem_singleton.mpr rfl)⟩

/-- Claim C10: every returned result satisfies `exact_match_found = true`
iff `exact_match_id ≠ none`, and a reported id is the id of a corpus
record that appeared among the searched candidates with similarity at or
above the threshold. -/
theorem C10_exact_match_invariant (s : Service) (query : String) (th : Rat)
    (K : Nat) (ee : Bool) :
    ((find_similar s query th K ee).exact_match_found = true ↔
      (find_similar s query th K ee).exact_match_id ≠ none) ∧
    (∀ i, (find_similar s query th K ee).exact_match_id = some i →
      ∃ cands sc idx rec, searched_candidates s query K = some cands ∧
        (sc, idx) ∈ cands ∧ th ≤ sc ∧ s.questions[idx]? = some rec ∧
        rec.id = some i) := by
  unfold find_similar
  split
  · simp [degraded]
  · cases hc : searched_candidates s query K with
    | none => simp [degraded]
    | some cands =>
      simp only [Option.some_bind']
      cases hl : candidateLoop s.model s.questions query th K ee cands false none [] with
      | none => simp [degraded]
      | some out =>
        obtain ⟨hiff, hmem⟩ := candidateLoop_invariant s.model s.questions query th K ee
          cands false none [] out.1 out.2.1 out.2.2 hl (by simp)
        refine ⟨hiff, ?_⟩
        intro i hi
        rcases hmem i hi with h0 | ⟨sc, idx, rec, hm, hth, hrec, hid⟩
        · exact absurd h0 (by simp)
        · exact ⟨cands, sc, idx, rec, rfl, hm, hth, hrec, hid⟩

/-- Claim C10, witness: the reported id 2 of `testService`. -/
theorem C10_witness :
    ∃ cands sc idx rec, searched_candidates testService "a" 10 = some cands ∧
      (sc, idx) ∈ cands ∧ mkRat 8 10 ≤ sc ∧ testService.questions[idx]? = some rec ∧
      rec.id = some 2 :=
  (C10_exact_match_invariant testService "a" (mkRat 8 10) 10 true).2 2 (by decide)

/-- Claim C1, counterexample.  In `testService` the ranked candidates are
`[(1, 0), (1, 1)]`; the first-ranked candidate (position 0, `testRecA`,
id 1) is an exact match of the query at or above the threshold, yet
`find_similar` reports `exact_match_id = some 2` — the id of the *last*
exact match — under both values of `exclude_exact`.  The claim, which says
the *first* exact match in ranked order is the one reported, is false. -/
theorem C1_counterexample :
    searched_candidates testService "a" 10 = some [(1, 0), (1, 1)] ∧
    are_texts_similar testModel "a" "A" q099 = true ∧
    testRecA.id = some 1 ∧ testRecB.id = some 2 ∧
    find_similar testService "a" (mkRat 8 10) 10 true =
      { results := [], exact_match_found := true, exact_match_id := some 2 } ∧
    find_similar testService "a" (mkRat 8 10) 10 false =
      { results :=
          [{ record := testRecA, similarity := 1, is_exact_match := true },
           { record := testRecB, similarity := 1, is_exact_match := true }],
        exact_match_found := true, exact_match_id := some 2 } :=
  ⟨by decide, by decide, by decide, by decide, by decide, by decide⟩

/-- Claim C1, amended.  When one or more candidates at or above the
threshold are exact matches, `exact_match_found` is set and
`exact_match_id` is the id of the *last* exact match encountered (each
exact match overwrites the previous id): whenever the loop completes
without an exception and visits every candidate (the candidate list does
not exceed `top_k`, so the early stop cannot cut it short), the
bookkeeping pair equals `book_fold`, a fold that is independent of
`exclude_exact` and keeps the last exact-match id. -/
theorem C1_amended_last_exact_bookkeeping (m : Model) (qs : List RawRecord)
    (query : String) (th : Rat) (K : Nat) (ee : Bool) (cands : List (Rat × Nat))
    (hc : searched_candidates (mkService m qs) query K = some cands)
    (hlen : cands.length ≤ K)
    (hloop : candidateLoop m qs query th K ee cands false none [] ≠ none) :
    ((find_similar (mkService m qs) query th K ee).exact_match_found,
      (find_similar (mkService m qs) query th K ee).exact_match_id) =
      book_fold m qs query th cands (false, none) :=
  find_similar_book m qs query th K ee cands hc hlen hloop

/-- Claim C1, witness for the amended theorem at a concrete engine. -/
theorem C1_witness :
    searched_candidates testService "a" 10 = some [(1, 0), (1, 1)] ∧
    ((find_similar testService "a" (mkRat 8 10) 10 true).exact_match_found,
      (find_similar testService "a" (mkRat 8 10) 10 true).exact_match_id) =
      book_fold testModel [testRecA, testRecB] "a" (mkRat 8 10) [(1, 0), (1, 1)] (false, none) :=
  ⟨by decide,
    C1_amended_last_exact_bookkeeping testModel [testRecA, testRecB] "a" (mkRat 8 10) 10 true
      [(1, 0), (1, 1)] (by decide) (by decide) (by decide)⟩

/-- Claim C9, counterexample.  With one record missing `"question"` in the
corpus, the whole index build fails (`build_index = none`) and a query for
the remaining well-formed record returns nothing, although the same query
against the well-formed record alone returns it: a malformed record is
not skipped individually, contradicting the claim. -/
theorem C9_counterexample :
    build_index testModel [badRec, goodRec] = none ∧
    find_similar (mkService testModel [badRec, goodRec]) "good" (mkRat 8 10) 10 false
      = degraded ∧
    (find_similar (mkService testModel [goodRec]) "good" (mkRat 8 10) 10 false).results.map
      (fun e => e.record.id) = [some 1] :=
  ⟨by decide, by decide, by decide⟩

/-- Claim C9, amended.  A record missing the `"question"` field causes the
entire index build to fail, so every query degrades — the remaining
well-formed records are not indexed; by contrast a corpus whose records
all carry an encodable `"question"` (even with `"id"` missing) does build
an index, so a missing `"id"` is not a load-time error at all (it
surfaces per-query, see C3). -/
theorem C9_malformed_record_degrades_engine (m : Model) (qs : List RawRecord) :
    ((∃ r ∈ qs, r.question = none) →
      build_index m qs = none ∧
      ∀ query th K ee, find_similar (mkService m qs) query th K ee = degraded) ∧
    ((qs ≠ [] ∧ ∀ r ∈ qs, (r.question.bind m.encode).isSome) →
      (mkService m qs).index ≠ none) := by
  constructor
  · intro hbad
    obtain ⟨r, hr, hq⟩ := hbad
    have hmn : mapOpt RawRecord.question qs = none := mapOpt_none _ qs r hr hq
    have hb : build_index m qs = none := by
      unfold build_index
      split
      · rfl
      · rw [hmn]
    refine ⟨hb, ?_⟩
    intro query th K ee
    unfold find_similar
    rw [if_pos (Or.inl (by simp only [mkService]; exact hb))]
  · intro hwell
    obtain ⟨hne, hall⟩ := hwell
    simp only [mkService]
    unfold build_index
    rw [if_neg (by simpa using hne)]
    have h1 : (mapOpt RawRecord.question qs).isSome = true := by
      refine mapOpt_isSome _ qs ?_
      intro r hr
      have hbind := hall r hr
      cases hq : r.question with
      | none => rw [hq] at hbind; exact absurd hbind (by simp)
      | some t => simp
    obtain ⟨texts, htexts⟩ := Option.isSome_iff_exists.mp h1
    rw [htexts]
    have h2 : (mapOpt m.encode texts).isSome = true := by
      refine mapOpt_isSome _ texts ?_
      intro t htmem
      obtain ⟨r, hr, hqt⟩ := mapOpt_mem _ qs texts htexts t htmem
      have hbind := hall r hr
      rw [hqt] at hbind
      simpa using hbind
    obtain ⟨embs, hembs⟩ := Option.isSome_iff_exists.mp h2
    show (match mapOpt m.encode texts with
      | none => none
      | some embs => some embs) ≠ none
    rw [hembs]
    simp

/-- Claim C9, witness for both halves of the amended theorem. -/
theorem C9_witness :
    (∃ r ∈ [badRec, goodRec], r.question = none) ∧
    build_index testModel [badRec, goodRec] = none ∧
    find_similar (mkService testModel [badRec, goodRec]) "good" (mkRat 8 10) 10 true
      = degraded ∧
    (([goodRec] : List RawRecord) ≠ [] ∧
      ∀ r ∈ [goodRec], (r.question.bind testModel.encode).isSome) ∧
    (mkService testModel [goodRec]).index ≠ none :=
  ⟨by decide, ((C9_malformed_record_degrades_engine testModel [badRec, goodRec]).1
      (by decide)).1,
    ((C9_malformed_record_degrades_engine testModel [badRec, goodRec]).1
      (by decide)).2 "good" (mkRat 8 10) 10 true,
    by decide,
    (C9_malformed_record_degrades_engine testModel [goodRec]).2 (by decide)⟩
